import Mathlib

/-!
Verification of the neurodiversity-map visualization core
(`src/neurodiversity.tsx`).

The development shallowly embeds the data pipeline of the component:
JavaScript numbers are modelled as exact rationals extended with the
IEEE specials `NaN`, `Infinity` and `-Infinity` (the code performs only
field arithmetic, min/max and comparisons on them, so exact arithmetic
is a faithful model up to rounding); fallible lookups return `Option`;
the geometric layer (covariance-ellipse fitting) is embedded over `ℝ`
because it uses square roots and `atan2`.
-/

/-- Model of a JavaScript `number`: a finite value (exact rational) or
one of the specials `NaN`, `Infinity`, `-Infinity`.  The signed zero
`-0` is identified with `0` (the component never distinguishes them). -/
inductive JNum where
  | fin (q : ℚ)
  | nan
  | inf
  | ninf
deriving DecidableEq

namespace JNum

/-- JavaScript `Number.isFinite`. -/
def isFinite : JNum → Bool
  | fin _ => true
  | _ => false

/-- The finite value, if any. -/
def toQ : JNum → Option ℚ
  | fin q => some q
  | _ => none

/-- JavaScript unary negation on numbers. -/
def jneg : JNum → JNum
  | fin q => fin (-q)
  | nan => nan
  | inf => ninf
  | ninf => inf

/-- JavaScript `+` on numbers. -/
def jadd : JNum → JNum → JNum
  | nan, _ => nan
  | _, nan => nan
  | inf, ninf => nan
  | ninf, inf => nan
  | inf, _ => inf
  | _, inf => inf
  | ninf, _ => ninf
  | _, ninf => ninf
  | fin a, fin b => fin (a + b)

/-- JavaScript `-` on numbers (`a - b = a + (-b)`). -/
def jsub (a b : JNum) : JNum := jadd a (jneg b)

/-- JavaScript `*` on numbers. -/
def jmul : JNum → JNum → JNum
  | nan, _ => nan
  | _, nan => nan
  | inf, inf => inf
  | inf, ninf => ninf
  | ninf, inf => ninf
  | ninf, ninf => inf
  | inf, fin q => if 0 < q then inf else if q < 0 then ninf else nan
  | fin q, inf => if 0 < q then inf else if q < 0 then ninf else nan
  | ninf, fin q => if 0 < q then ninf else if q < 0 then inf else nan
  | fin q, ninf => if 0 < q then ninf else if q < 0 then inf else nan
  | fin a, fin b => fin (a * b)

/-- JavaScript `/` on numbers (with `-0` identified with `0`, a finite
numerator over a zero denominator takes the sign of the numerator). -/
def jdiv : JNum → JNum → JNum
  | nan, _ => nan
  | _, nan => nan
  | inf, inf => nan
  | inf, ninf => nan
  | ninf, inf => nan
  | ninf, ninf => nan
  | inf, fin q => if 0 ≤ q then inf else ninf
  | ninf, fin q => if 0 ≤ q then ninf else inf
  | fin _, inf => fin 0
  | fin _, ninf => fin 0
  | fin a, fin b =>
    if b = 0 then (if 0 < a then inf else if a < 0 then ninf else nan)
    else fin (a / b)

/-- JavaScript `<` on numbers (`NaN` compares false to everything). -/
def jlt : JNum → JNum → Bool
  | nan, _ => false
  | _, nan => false
  | fin a, fin b => a < b
  | fin _, inf => true
  | fin _, ninf => false
  | inf, _ => false
  | ninf, ninf => false
  | ninf, _ => true

/-- JavaScript truthiness of a number: `0` and `NaN` are falsy. -/
def truthy : JNum → Bool
  | fin q => q ≠ 0
  | nan => false
  | _ => true

/-- JavaScript `a || b` restricted to numbers: yields `b` when `a` is
falsy (`0` or `NaN`), otherwise `a`. -/
def jor (a b : JNum) : JNum := if a.truthy then a else b

end JNum

/-- Model of a JavaScript value as delivered by the CSV parser for a
present cell: a number, a string, or `null`.  An absent field
(`undefined`) is modelled as `Option.none` at the use site. -/
inductive JVal where
  | num (j : JNum)
  | str (s : String)
  | null
deriving DecidableEq

/-- A chain `a ?? b ?? c ?? …` of JavaScript nullish coalescing over
possibly-absent values: the first operand that is neither `undefined`
(`none`) nor `null` wins; an exhausted chain is `none` (the model does
not distinguish a final `null` from a final `undefined`, and no use
site does either). -/
def coal : List (Option JVal) → Option JVal
  | [] => none
  | none :: rest => coal rest
  | some .null :: rest => coal rest
  | some v :: _ => some v

/-- `x ?? d` with a non-nullish literal default `d`. -/
def coalD (x : Option JVal) (d : JVal) : JVal :=
  match x with
  | none => d
  | some .null => d
  | some v => v

/-- Model of JavaScript `String.prototype.trim` (whitespace stripping
from both ends; the CSV cells only carry ASCII whitespace, so the
ASCII-whitespace predicate suffices). -/
def jsTrim (s : String) : String :=
  ((s.toList.dropWhile Char.isWhitespace).reverse.dropWhile
      Char.isWhitespace).reverse.asString

/-- Model of JavaScript `String.prototype.toLowerCase` on the ASCII
range (the normalizer compares lowered labels against ASCII words). -/
def jsLower (s : String) : String := (s.toList.map Char.toLower).asString

/-- Digit value of a decimal digit character. -/
def digitVal (c : Char) : Option ℕ :=
  if c.isDigit then some (c.toNat - 48) else none

/-- Parses a nonempty all-decimal-digit character list to a natural
number; `none` otherwise. -/
def parseDigits : List Char → Option ℕ
  | [] => none
  | cs => go cs 0
where
  go : List Char → ℕ → Option ℕ
    | [], acc => some acc
    | c :: rest, acc =>
      match digitVal c with
      | some d => go rest (acc * 10 + d)
      | none => none

/-- Hexadecimal digit value. -/
def hexVal (c : Char) : Option ℕ :=
  if c.isDigit then some (c.toNat - 48)
  else if 'a' ≤ c ∧ c ≤ 'f' then some (c.toNat - 97 + 10)
  else if 'A' ≤ c ∧ c ≤ 'F' then some (c.toNat - 65 + 10)
  else none

/-- Parses a nonempty all-hex-digit character list. -/
def parseHexDigits : List Char → Option ℕ
  | [] => none
  | cs => go cs 0
where
  go : List Char → ℕ → Option ℕ
    | [], acc => some acc
    | c :: rest, acc =>
      match hexVal c with
      | some d => go rest (acc * 16 + d)
      | none => none

/-- Splits a character list at the first character satisfying `p`:
returns the part before it and, if found, the part after it. -/
def splitFirst (p : Char → Bool) : List Char → List Char × Option (List Char)
  | [] => ([], none)
  | c :: rest =>
    if p c then ([], some rest)
    else
      let (pre, post) := splitFirst p rest
      (c :: pre, post)

/-- Parses a JavaScript decimal numeric literal (optional sign, integer
and/or fractional digits, optional exponent) to an exact rational. -/
def parseDecimal (cs : List Char) : Option ℚ :=
  let (sgn, cs) : ℚ × List Char :=
    match cs with
    | '+' :: rest => (1, rest)
    | '-' :: rest => (-1, rest)
    | _ => (1, cs)
  let (mant, expPart) := splitFirst (fun c => c = 'e' ∨ c = 'E') cs
  let (intDs, fracPart) := splitFirst (fun c => c = '.') mant
  let fracDs := fracPart.getD []
  if intDs = [] ∧ fracDs = [] then none
  else
    match (if intDs = [] then some 0 else parseDigits intDs),
          (if fracDs = [] then some 0 else parseDigits fracDs) with
    | some ip, some fp =>
      let base : ℚ := sgn * ((ip : ℚ) + (fp : ℚ) / ((10 : ℚ) ^ fracDs.length))
      match expPart with
      | none => some base
      | some es =>
        let (esgn, eds) : Bool × List Char :=
          match es with
          | '+' :: rest => (false, rest)
          | '-' :: rest => (true, rest)
          | _ => (false, es)
        match parseDigits eds with
        | some e =>
          some (if esgn then base / ((10 : ℚ) ^ e) else base * ((10 : ℚ) ^ e))
        | none => none
    | _, _ => none

/-- Model of the JavaScript string-to-number coercion used by
`Number(string)`: whitespace-trimmed; empty string is `0`;
`Infinity` forms; hex/binary/octal prefixes; otherwise a decimal
literal; anything else is `NaN`. -/
def strToJNum (s : String) : JNum :=
  let t := jsTrim s
  if t = "" then .fin 0
  else if t = "Infinity" ∨ t = "+Infinity" then .inf
  else if t = "-Infinity" then .ninf
  else
    match t.toList with
    | '0' :: 'x' :: rest => (parseHexDigits rest).elim .nan (fun n => .fin n)
    | '0' :: 'X' :: rest => (parseHexDigits rest).elim .nan (fun n => .fin n)
    | cs => (parseDecimal cs).elim .nan (fun q => .fin q)

/-- JavaScript `Number(v)` on a present value. -/
def jvalToNumber : JVal → JNum
  | .num j => j
  | .null => .fin 0
  | .str s => strToJNum s

/-- JavaScript `Number(v)` on a possibly-absent value
(`Number(undefined) = NaN`). -/
def jsToNumber : Option JVal → JNum
  | none => .nan
  | some v => jvalToNumber v

/-- Decimal digits of the fractional part of `rem/den` by long
division, with enough fuel for every binary-floating-point value
(whose reduced denominator divides a power of ten after scaling);
rationals with a non-terminating decimal expansion — which cannot
arise from `Number(...)` parsing — are truncated at the fuel bound. -/
def fracDigits : ℕ → ℕ → ℕ → String
  | _, _, 0 => ""
  | rem, den, fuel + 1 =>
    if rem = 0 then ""
    else
      let r10 := rem * 10
      let d := r10 / den
      (Nat.toDigits 10 d).asString ++ fracDigits (r10 % den) den fuel

/-- Plain decimal rendering of an exact rational, modelling JavaScript
`String(number)` for finite values (the exponential notation JavaScript
switches to beyond `1e21` / below `1e-6` is not modelled; no claim
exercises such magnitudes). -/
def qToDecString (q : ℚ) : String :=
  let sign := if q < 0 then "-" else ""
  let n := q.num.natAbs
  let d := q.den
  let ip := n / d
  let rem := n % d
  if rem = 0 then sign ++ (Nat.toDigits 10 ip).asString
  else sign ++ (Nat.toDigits 10 ip).asString ++ "." ++ fracDigits rem d 1100

/-- JavaScript `String(number)`. -/
def jnumToString : JNum → String
  | .nan => "NaN"
  | .inf => "Infinity"
  | .ninf => "-Infinity"
  | .fin q => qToDecString q

/-- JavaScript `String(v)` on a present value. -/
def jsString : JVal → String
  | .str s => s
  | .null => "null"
  | .num j => jnumToString j

/-- A raw node row as delivered by the CSV parser: every column the
component's normalizer consults, each possibly absent.  Fields default
to absent so concrete rows list only their present cells. -/
structure RawNode where
  id : Option JVal := none
  ID : Option JVal := none
  user_id : Option JVal := none
  UserID : Option JVal := none
  x_KPCA : Option JVal := none
  kpca_x : Option JVal := none
  KPCA_X : Option JVal := none
  X : Option JVal := none
  x : Option JVal := none
  KPCA1 : Option JVal := none
  y_KPCA : Option JVal := none
  kpca_y : Option JVal := none
  KPCA_Y : Option JVal := none
  Y : Option JVal := none
  y : Option JVal := none
  KPCA2 : Option JVal := none
  cluster : Option JVal := none
  Cluster : Option JVal := none
  clusters : Option JVal := none
  Clusters : Option JVal := none
  community : Option JVal := none
  Community : Option JVal := none
  label : Option JVal := none
  Label : Option JVal := none
  comm_id : Option JVal := none
  comm : Option JVal := none
deriving DecidableEq

/-- A normalized node record (the fields of `nNorm`'s output that the
rest of the component reads; the spread of the remaining raw columns
carries only trait scores, which no verified path consults). -/
structure NodeRec where
  id : String
  x : JNum
  y : JNum
  cluster : JVal
deriving DecidableEq

/-- The id-alias coalescing chain of `nNorm`. -/
def rawNodeIdVal (r : RawNode) : Option JVal :=
  coal [r.id, r.ID, r.user_id, r.UserID]

/-- The x-alias coalescing chain of `nNorm`. -/
def rawNodeXVal (r : RawNode) : Option JVal :=
  coal [r.x_KPCA, r.kpca_x, r.KPCA_X, r.X, r.x, r.KPCA1]

/-- The y-alias coalescing chain of `nNorm`. -/
def rawNodeYVal (r : RawNode) : Option JVal :=
  coal [r.y_KPCA, r.kpca_y, r.KPCA_Y, r.Y, r.y, r.KPCA2]

/-- The cluster-alias coalescing chain of `nNorm`. -/
def rawNodeClusterVal (r : RawNode) : Option JVal :=
  coal [r.cluster, r.Cluster, r.clusters, r.Clusters, r.community,
        r.Community, r.label, r.Label, r.comm_id, r.comm]

/-- Normalization of one node row (the body of `nNorm`'s `map`):
stringified trimmed id, numeric coordinates, and the cluster label with
a blank or case-insensitive `nan`/`none`/`null` string collapsed to
`null`. -/
def nNormOne (r : RawNode) : NodeRec :=
  let idv := jsTrim (jsString (coalD (rawNodeIdVal r) (.str "")))
  let xv := jsToNumber (rawNodeXVal r)
  let yv := jsToNumber (rawNodeYVal r)
  let c0 := coalD (rawNodeClusterVal r) .null
  let cv :=
    match c0 with
    | .str s =>
      let t := jsTrim s
      if t = "" ∨ jsLower t = "nan" ∨ jsLower t = "none" ∨ jsLower t = "null"
      then JVal.null else .str s
    | v => v
  ⟨idv, xv, yv, cv⟩

/-- `nNorm`: normalization of the node table (rows are objects, hence
truthy, so the source's `filter(Boolean)` guard is the identity and the
map alone remains). -/
def nNorm (rows : List RawNode) : List NodeRec := rows.map nNormOne

/-- A raw edge row: every column the edge normalizer consults. -/
structure RawEdge where
  source_id : Option JVal := none
  source : Option JVal := none
  from_col : Option JVal := none
  i : Option JVal := none
  u : Option JVal := none
  SOURCE : Option JVal := none
  Source : Option JVal := none
  From : Option JVal := none
  target_id : Option JVal := none
  target : Option JVal := none
  to_col : Option JVal := none
  j : Option JVal := none
  v : Option JVal := none
  TARGET : Option JVal := none
  Target : Option JVal := none
  To : Option JVal := none
  weight : Option JVal := none
  w : Option JVal := none
  value : Option JVal := none
  sim : Option JVal := none
  similarity : Option JVal := none
  Weight : Option JVal := none
  W : Option JVal := none
deriving DecidableEq

/-- A normalized edge record. -/
structure EdgeRec where
  source_id : String
  target_id : String
  weight : JNum
deriving DecidableEq

/-- The source-alias coalescing chain of `eNorm` (`from` is a reserved
word in Lean, hence the field name `from_col`). -/
def rawEdgeSourceVal (r : RawEdge) : Option JVal :=
  coal [r.source_id, r.source, r.from_col, r.i, r.u, r.SOURCE, r.Source, r.From]

/-- The target-alias coalescing chain of `eNorm`. -/
def rawEdgeTargetVal (r : RawEdge) : Option JVal :=
  coal [r.target_id, r.target, r.to_col, r.j, r.v, r.TARGET, r.Target, r.To]

/-- The weight-alias coalescing chain of `eNorm`. -/
def rawEdgeWeightVal (r : RawEdge) : Option JVal :=
  coal [r.weight, r.w, r.value, r.sim, r.similarity, r.Weight, r.W]

/-- Normalization of one edge row (the body of `eNorm`'s `map`). -/
def eNormOne (r : RawEdge) : EdgeRec :=
  ⟨jsTrim (jsString (coalD (rawEdgeSourceVal r) (.str ""))),
   jsTrim (jsString (coalD (rawEdgeTargetVal r) (.str ""))),
   jsToNumber (some (coalD (rawEdgeWeightVal r) (.num (.fin 1))))⟩

/-- `eNorm`: normalization of the edge table, keeping only edges whose
two endpoint ids are truthy (nonempty) strings. -/
def eNorm (rows : List RawEdge) : List EdgeRec :=
  (rows.map eNormOne).filter (fun e => e.source_id ≠ "" ∧ e.target_id ≠ "")

/-- `nodeById`: the id-indexed map over the node list.  A JavaScript
`Map.set` overwrites, so a duplicated id resolves to the last node
bearing it. -/
def nodeById (nodes : List NodeRec) (s : String) : Option NodeRec :=
  nodes.foldl (fun acc n => if n.id = s then some n else acc) none

/-- A drawable edge segment (both endpoint coordinates are known finite
when the record is formed, so they are stored as rationals). -/
structure Seg where
  x1 : ℚ
  y1 : ℚ
  x2 : ℚ
  y2 : ℚ
  w : JNum
deriving DecidableEq

/-- The segment an edge contributes, if any: both endpoint ids must
resolve in the node map and all four resolved coordinates must be
finite; the stored weight is `Number(e.weight) || 0`. -/
def segOf (nodes : List NodeRec) (e : EdgeRec) : Option Seg :=
  match nodeById nodes e.source_id, nodeById nodes e.target_id with
  | some a, some b =>
    match a.x, a.y, b.x, b.y with
    | .fin x1, .fin y1, .fin x2, .fin y2 =>
      some ⟨x1, y1, x2, y2, JNum.jor e.weight (.fin 0)⟩
    | _, _, _, _ => none
  | _, _ => none

/-- `edgeSegments`: the drawable-segment accumulation loop. -/
def edgeSegments (edges : List EdgeRec) (nodes : List NodeRec) : List Seg :=
  edges.foldl
    (fun segs e =>
      match segOf nodes e with
      | some s => segs ++ [s]
      | none => segs)
    []

/-- The finite values of a list of numbers (the source's
`.map(Number).filter(Number.isFinite)`; `Number` is the identity on the
already-numeric coordinates). -/
def finVals (l : List JNum) : List ℚ := l.filterMap JNum.toQ

/-- JavaScript `Math.min(...l)` over a list of finite numbers: the
empty spread yields `Infinity`. -/
def jsMinList : List ℚ → JNum
  | [] => .inf
  | h :: t => .fin (t.foldl min h)

/-- JavaScript `Math.max(...l)` over a list of finite numbers: the
empty spread yields `-Infinity`. -/
def jsMaxList : List ℚ → JNum
  | [] => .ninf
  | h :: t => .fin (t.foldl max h)

/-- The padded data-space extent. -/
structure Extent where
  xmin : JNum
  xmax : JNum
  ymin : JNum
  ymax : JNum
deriving DecidableEq

/-- `extent`: the axis-aligned bounding box over the finite node
coordinates, padded by 8% of each axis's span (a zero span falls back
to 1 before the 8% factor); `[-1,1]×[-1,1]` for an empty node list. -/
def extentF (nodes : List NodeRec) : Extent :=
  match nodes with
  | [] => ⟨.fin (-1), .fin 1, .fin (-1), .fin 1⟩
  | _ =>
    let xs := finVals (nodes.map (·.x))
    let ys := finVals (nodes.map (·.y))
    let xmin := jsMinList xs
    let xmax := jsMaxList xs
    let ymin := jsMinList ys
    let ymax := jsMaxList ys
    let padX := JNum.jmul (JNum.jor (JNum.jsub xmax xmin) (.fin 1)) (.fin (2/25))
    let padY := JNum.jmul (JNum.jor (JNum.jsub ymax ymin) (.fin 1)) (.fin (2/25))
    ⟨JNum.jsub xmin padX, JNum.jadd xmax padX,
     JNum.jsub ymin padY, JNum.jadd ymax padY⟩

/-- `sx`: data-to-pixel mapping on the x axis, with the zero-span
denominator replaced by 1 and a fixed 10px margin inside width `W`. -/
def sxJ (e : Extent) (W : ℚ) (x : JNum) : JNum :=
  let u := JNum.jdiv (JNum.jsub x e.xmin)
                     (JNum.jor (JNum.jsub e.xmax e.xmin) (.fin 1))
  JNum.jadd (JNum.jmul u (.fin (W - 20))) (.fin 10)

/-- `sy`: data-to-pixel mapping on the y axis (flipped), with the
zero-span denominator replaced by 1 and a fixed 10px margin inside
height `H`. -/
def syJ (e : Extent) (H : ℚ) (y : JNum) : JNum :=
  let v := JNum.jsub (.fin 1)
             (JNum.jdiv (JNum.jsub y e.ymin)
                        (JNum.jor (JNum.jsub e.ymax e.ymin) (.fin 1)))
  JNum.jadd (JNum.jmul v (.fin (H - 20))) (.fin 10)

/-- A fully finite extent (the reachable case whenever any node has
finite coordinates). -/
structure ExtQ where
  xmin : ℚ
  xmax : ℚ
  ymin : ℚ
  ymax : ℚ
deriving DecidableEq

/-- A finite extent as an `Ext`. -/
def ExtQ.toJ (e : ExtQ) : Extent := ⟨.fin e.xmin, .fin e.xmax, .fin e.ymin, .fin e.ymax⟩

/-- The x mapping on finite data (value form of `sxJ`). -/
def sxQ (e : ExtQ) (W x : ℚ) : ℚ :=
  (x - e.xmin) / (if e.xmax - e.xmin = 0 then 1 else e.xmax - e.xmin) * (W - 20) + 10

/-- The y mapping on finite data (value form of `syJ`). -/
def syQ (e : ExtQ) (H y : ℚ) : ℚ :=
  (1 - (y - e.ymin) / (if e.ymax - e.ymin = 0 then 1 else e.ymax - e.ymin)) * (H - 20) + 10

/-- One step of the click handler's nearest-point scan: skip nodes
without finite coordinates, otherwise keep the strictly closer of the
running best and the node (ties keep the running best). -/
def pickStep (e : Extent) (W H cx cy : ℚ) (best : String × JNum) (n : NodeRec) :
    String × JNum :=
  match n.x, n.y with
  | .fin _, .fin _ =>
    let dx := JNum.jsub (sxJ e W n.x) (.fin cx)
    let dy := JNum.jsub (syJ e H n.y) (.fin cy)
    let d2 := JNum.jadd (JNum.jmul dx dx) (JNum.jmul dy dy)
    if JNum.jlt d2 best.2 then (n.id, d2) else best
  | _, _ => best

/-- The nearest-point pick of `handleCanvasClick`: the scan starts from
the empty id and an infinite best distance; the empty id doubles as the
"none" result. -/
def pickId (nodes : List NodeRec) (e : Extent) (W H cx cy : ℚ) : String :=
  (nodes.foldl (pickStep e W H cx cy) ("", .inf)).1

/-- The selection update performed by `handleCanvasClick`: the pick
result is applied only when truthy (a nonempty string). -/
def clickUpdate (nodes : List NodeRec) (e : Extent) (W H cx cy : ℚ)
    (sel : String) : String :=
  let b := pickId nodes e W H cx cy
  if b ≠ "" then b else sel

/-- The finite-coordinate nodes, as (id, x, y) triples in list order. -/
def finNodes (nodes : List NodeRec) : List (String × ℚ × ℚ) :=
  nodes.filterMap (fun n =>
    match n.x, n.y with
    | .fin x, .fin y => some (n.id, x, y)
    | _, _ => none)

/-- Squared pixel distance from the click to a projected node. -/
def d2Q (e : ExtQ) (W H cx cy : ℚ) (t : String × ℚ × ℚ) : ℚ :=
  (sxQ e W t.2.1 - cx) * (sxQ e W t.2.1 - cx) +
  (syQ e H t.2.2 - cy) * (syQ e H t.2.2 - cy)

/-- The cluster key a node contributes to the ellipse grouping:
`String(cluster ?? "nan")`. -/
def clusterStr (n : NodeRec) : String :=
  match n.cluster with
  | .null => "nan"
  | v => jsString v

/-- The point a node contributes to its cluster, when its coordinates
are finite. -/
def finPt (n : NodeRec) : Option (ℚ × ℚ) :=
  match n.x, n.y with
  | .fin x, .fin y => some (x, y)
  | _, _ => none

/-- Insert-or-append into the cluster table: a fresh key is appended at
the end (object-key creation), an existing key has the point appended
to its list. -/
def updC (c : String) (p : Option (ℚ × ℚ)) :
    List (String × List (ℚ × ℚ)) → List (String × List (ℚ × ℚ))
  | [] => [(c, p.toList)]
  | (c', ps) :: rest =>
    if c' = c then (c', ps ++ p.toList) :: rest
    else (c', ps) :: updC c p rest

/-- `byCluster`: the per-cluster finite-point table, skipping the
`"nan"` key.  (JavaScript enumerates integer-like object keys first;
the model keeps pure insertion order, which agrees on membership and
per-key contents, and no verified property depends on entry order.) -/
def clusterStep (acc : List (String × List (ℚ × ℚ))) (n : NodeRec) :
    List (String × List (ℚ × ℚ)) :=
  let c := clusterStr n
  if c = "nan" then acc else updC c (finPt n) acc

def clusterPts (nodes : List NodeRec) : List (String × List (ℚ × ℚ)) :=
  nodes.foldl clusterStep []

/-- Result record of the covariance-ellipse fit. -/
structure EllipseR where
  cx : ℝ
  cy : ℝ
  width : ℝ
  height : ℝ
  angle : ℝ

/-- A 2-D point for the real-valued geometry layer. -/
structure PtR where
  x : ℝ
  y : ℝ

/-- Model of JavaScript `Math.atan2`. -/
noncomputable def atan2 (y x : ℝ) : ℝ :=
  if 0 < x then Real.arctan (y / x)
  else if x < 0 then
    (if 0 ≤ y then Real.arctan (y / x) + Real.pi else Real.arctan (y / x) - Real.pi)
  else if 0 < y then Real.pi / 2
  else if y < 0 then -(Real.pi / 2)
  else 0

/-- Eigen-decomposition output of `eig2x2`: eigenvalues `l1 ≥ l2` and
the two eigenvector columns. -/
structure EigR where
  l1 : ℝ
  l2 : ℝ
  v1x : ℝ
  v1y : ℝ
  v2x : ℝ
  v2y : ℝ

open Classical in
/-- `eig2x2`: closed-form eigen-decomposition of the symmetric matrix
`[[a, b], [b, d]]` (the third argument is ignored by the source as
well), with the alternate eigenvector formula substituted when the
first candidate's absolute components sum below `1e-12`, followed by
normalization with a zero hypotenuse replaced by 1. -/
noncomputable def eig2x2 (a b _c d : ℝ) : EigR :=
  let tr := a + d
  let det := a * d - b * b
  let tmp := Real.sqrt (max 0 (tr * tr / 4 - det))
  let l1 := tr / 2 + tmp
  let l2 := tr / 2 - tmp
  let p : ℝ × ℝ := if |b| + |l1 - a| < 1e-12 then (l1 - d, b) else (b, l1 - a)
  let h := Real.sqrt (p.1 * p.1 + p.2 * p.2)
  let n1 := if h = 0 then 1 else h
  let v1x := p.1 / n1
  let v1y := p.2 / n1
  ⟨l1, l2, v1x, v1y, -v1y, v1x⟩

/-- Sum of the x coordinates (the source's first `reduce`). -/
def sumX (points : List PtR) : ℝ := points.foldl (fun s p => s + p.x) 0

/-- Sum of the y coordinates (the source's second `reduce`). -/
def sumY (points : List PtR) : ℝ := points.foldl (fun s p => s + p.y) 0

/-- The `(sxx, syy, sxy)` accumulation loop over centered coordinates. -/
def covAcc (points : List PtR) (mx my : ℝ) : ℝ × ℝ × ℝ :=
  points.foldl
    (fun s p =>
      let dx := p.x - mx
      let dy := p.y - my
      (s.1 + dx * dx, s.2.1 + dy * dy, s.2.2 + dx * dy))
    (0, 0, 0)

/-- `covEllipse`: fit of the confidence ellipse to a point cloud —
mean center, population covariance with `1e-9` added to the diagonal,
closed-form eigen-decomposition, asymmetric `1.5·k` / `2·k` axis
scaling, and the major eigenvector's `atan2` angle. -/
noncomputable def covEllipse (points : List PtR) (k : ℝ) : EllipseR :=
  let n : ℝ := points.length
  let mx := sumX points / n
  let my := sumY points / n
  let acc := covAcc points mx my
  let sxx := acc.1 / n + 1e-9
  let syy := acc.2.1 / n + 1e-9
  let sxy := acc.2.2 / n
  let e := eig2x2 sxx sxy sxy syy
  let width := 1.5 * k * Real.sqrt (max e.l1 0)
  let height := 2 * k * Real.sqrt (max e.l2 0)
  let angle := atan2 e.v1y e.v1x
  ⟨mx, my, width, height, angle⟩

/-- An assembled cluster ellipse: the cluster id with the fit record. -/
structure EllipseOut where
  cid : String
  e : EllipseR

/-- `ellipses`: one fitted ellipse (at scale `k = 2.5`) per cluster
with more than 2 finite member points; empty when the visibility toggle
is off. -/
noncomputable def ellipsesF (showEllipses : Bool) (nodes : List NodeRec) :
    List EllipseOut :=
  if !showEllipses then []
  else
    (clusterPts nodes).filterMap (fun p =>
      if 2 < p.2.length then
        some ⟨p.1, covEllipse (p.2.map (fun q => ⟨(q.1 : ℝ), (q.2 : ℝ)⟩)) 2.5⟩
      else none)

/-- The cluster ids that receive an ellipse (decidable shadow of
`ellipsesF` for concrete evaluation: the fit itself is real-valued,
but which clusters are fitted is not). -/
def ellipseCids (showEllipses : Bool) (nodes : List NodeRec) : List String :=
  if !showEllipses then []
  else
    (clusterPts nodes).filterMap (fun p =>
      if 2 < p.2.length then some p.1 else none)

/-- An interpolated color, one integer per channel (the source wraps
the three channels in an `rgb(r,g,b)` CSS string; channel equality is
color equality). -/
structure RGB where
  r : ℤ
  g : ℤ
  b : ℤ
deriving DecidableEq

/-- JavaScript `s.slice(a, b)` on a string. -/
def strSlice (s : String) (a b : ℕ) : String :=
  ((s.toList.drop a).take (b - a)).asString

/-- The source's `h2r`: `parseInt(h, 16)` on a hex-pair slice (the
stop table is well-formed, so the invalid-digit `NaN` case of
`parseInt` is unreachable and rendered as 0). -/
def h2r (h : String) : ℤ :=
  ((parseHexDigits h.toList).getD 0 : ℕ)

/-- JavaScript `Math.round`: half-up (toward `+∞`). -/
def jround (q : ℚ) : ℤ := ⌊q + 1 / 2⌋

/-- The viridis-style stop table of the colormap. -/
def vStops : List (ℚ × String) :=
  [(0, "#31083E"), (0.111, "#3D0A89"), (0.222, "#532496"), (0.333, "#6A3FA3"),
   (0.444, "#815AB0"), (0.555, "#9775BE"), (0.666, "#AD90CB"), (0.777, "#C3ABD8"),
   (0.888, "#D8C5E4"), (1, "#ECE0F0")]

/-- The bracketing scan of the colormap: starting from the current
stop, advance while the clamped parameter exceeds the next stop's
position; past the last stop the bracket degenerates to the stop
itself. -/
def findSeg (c : ℚ × String) (rest : List (ℚ × String)) (t : ℚ) :
    (ℚ × String) × (ℚ × String) :=
  match rest with
  | [] => (c, c)
  | c1 :: r => if t > c1.1 then findSeg c1 r t else (c, c1)

/-- Clamp to `[0, 1]` (the source's `min(1, max(0, t))`). -/
def clampQ (t : ℚ) : ℚ := min 1 (max 0 t)

/-- The channels of a `#rrggbb` stop color. -/
def hexToRGB (c : String) : RGB :=
  ⟨h2r (strSlice c 1 3), h2r (strSlice c 3 5), h2r (strSlice c 5 7)⟩

/-- Per-channel linear interpolation between two bracketing stops (a
zero position gap falls back to a denominator of 1), rounding each
channel. -/
def interp2 (p0 p1 : ℚ × String) (t : ℚ) : RGB :=
  let u := (t - p0.1) / (if p1.1 - p0.1 = 0 then 1 else p1.1 - p0.1)
  let a := hexToRGB p0.2
  let b := hexToRGB p1.2
  ⟨jround (a.r + (b.r - a.r) * u),
   jround (a.g + (b.g - a.g) * u),
   jround (a.b + (b.b - a.b) * u)⟩

/-- The color at `t` over a stop chain: interpolate between the
bracketing pair found by the scan. -/
def segColor (s0 : ℚ × String) (rest : List (ℚ × String)) (t : ℚ) : RGB :=
  interp2 (findSeg s0 rest t).1 (findSeg s0 rest t).2 t

/-- The colormap body after clamping. -/
def viridisBody (t : ℚ) : RGB :=
  match vStops with
  | [] => ⟨0, 0, 0⟩
  | s0 :: rest => segColor s0 rest t

/-- Pointwise channel order on colors. -/
def rgbLe (u v : RGB) : Prop := u.r ≤ v.r ∧ u.g ≤ v.g ∧ u.b ≤ v.b

/-- The stop chain has strictly increasing positions. -/
def stopsSorted : (ℚ × String) → List (ℚ × String) → Prop
  | _, [] => True
  | c, c1 :: r => c.1 < c1.1 ∧ stopsSorted c1 r

/-- The stop chain has nondecreasing color channels. -/
def stopsChanMono : (ℚ × String) → List (ℚ × String) → Prop
  | _, [] => True
  | c, c1 :: r => rgbLe (hexToRGB c.2) (hexToRGB c1.2) ∧ stopsChanMono c1 r

/-- `viridis`: the clamped piecewise-linear colormap. -/
def viridis (t : ℚ) : RGB := viridisBody (clampQ t)

/-- Modelled from the spec: `toData`, the inverse of the linear
`toScreenX` mapping, which the source does not define (the spec's
round-trip property §8 quantifies over it). -/
def toDataX (e : ExtQ) (W px : ℚ) : ℚ :=
  e.xmin + (px - 10) / (W - 20) * (e.xmax - e.xmin)

/-- Modelled from the spec: `toData` on the (flipped) y axis, the
inverse of the linear `toScreenY` mapping. -/
def toDataY (e : ExtQ) (H py : ℚ) : ℚ :=
  e.ymin + (1 - (py - 10) / (H - 20)) * (e.ymax - e.ymin)

/-- Minimum of a nonempty list given head and tail. -/
def qListMin (h : ℚ) (t : List ℚ) : ℚ := t.foldl min h

/-- Maximum of a nonempty list given head and tail. -/
def qListMax (h : ℚ) (t : List ℚ) : ℚ := t.foldl max h

/-- The 8% padding of an axis span, with a zero span replaced by 1. -/
def padOf (s : ℚ) : ℚ := (if s = 0 then 1 else s) * (2/25)

/-- The `i`-th colormap stop (defaulting past the end). -/
def stopAt (i : ℕ) : ℚ × String := vStops.getD i (0, "")

/-- Association lookup in the cluster table. -/
def getC : List (String × List (ℚ × ℚ)) → String → Option (List (ℚ × ℚ))
  | [], _ => none
  | (c', ps) :: rest, c => if c' = c then some ps else getC rest c

/-- The finite member points of cluster key `c`, in node order (the
specification-side description of what `byCluster` accumulates). -/
def memberPts (nodes : List NodeRec) (c : String) : List (ℚ × ℚ) :=
  nodes.filterMap (fun n => if clusterStr n = c then finPt n else none)

/-- Whether a raw node row's cluster cell is a "no cluster" label:
absent, `null`, or a string that trims to the empty string or
case-insensitively to `nan`/`none`/`null`. -/
def isNoClusterLabel (r : RawNode) : Bool :=
  match coalD (rawNodeClusterVal r) .null with
  | .null => true
  | .str s =>
    jsTrim s == "" || jsLower (jsTrim s) == "nan" || jsLower (jsTrim s) == "none" ||
      jsLower (jsTrim s) == "null"
  | _ => false

/-- The value-level step of the nearest-point scan over the
finite-coordinate projection triples. -/
def pickStepQ (e : ExtQ) (W H cx cy : ℚ) (best : String × JNum)
    (t : String × ℚ × ℚ) : String × JNum :=
  if JNum.jlt (.fin (d2Q e W H cx cy t)) best.2
  then (t.1, .fin (d2Q e W H cx cy t)) else best

/-- The specification of the nearest-point pick: the first
finite-coordinate node minimizing the squared pixel distance
(`List.argmin` keeps the earlier element on ties), the empty string
when there is none. -/
def specPick (nodes : List NodeRec) (e : ExtQ) (W H cx cy : ℚ) : String :=
  match (finNodes nodes).argmin (d2Q e W H cx cy) with
  | none => ""
  | some t => t.1

open Classical in
/-- The specified behaviour of `covEllipse` on a point cloud: center
at the sample mean; width `1.5·k·√(max λ₁ 0)` and height
`2·k·√(max λ₂ 0)` where `λ₁ ≥ λ₂` are the two roots of the
characteristic polynomial of the ε-regularized population covariance
matrix `[[a, b], [b, d]]`; and the angle is the `atan2` of the
normalized major eigenvector obtained from the closed-form candidate
`(b, λ₁ - a)`, with `(λ₁ - d, b)` substituted when the former's
absolute components sum below `1e-12`. -/
def covEllipseSpec (pts : List PtR) (k : ℝ) : Prop :=
  let n : ℝ := pts.length
  let mx := (pts.map PtR.x).sum / n
  let my := (pts.map PtR.y).sum / n
  let a := (pts.map (fun p => (p.x - mx) * (p.x - mx))).sum / n + 1e-9
  let d := (pts.map (fun p => (p.y - my) * (p.y - my))).sum / n + 1e-9
  let b := (pts.map (fun p => (p.x - mx) * (p.y - my))).sum / n
  let r := covEllipse pts k
  r.cx = mx ∧ r.cy = my ∧
  ∃ lmaj lmin vx vy : ℝ,
    lmin ≤ lmaj ∧
    lmaj * lmaj - (a + d) * lmaj + (a * d - b * b) = 0 ∧
    lmin * lmin - (a + d) * lmin + (a * d - b * b) = 0 ∧
    (∀ μ : ℝ, μ * μ - (a + d) * μ + (a * d - b * b) = 0 → μ = lmaj ∨ μ = lmin) ∧
    r.width = 1.5 * k * Real.sqrt (max lmaj 0) ∧
    r.height = 2 * k * Real.sqrt (max lmin 0) ∧
    (vx, vy) = (if |b| + |lmaj - a| < 1e-12 then (lmaj - d, b) else (b, lmaj - a)) ∧
    a * vx + b * vy = lmaj * vx ∧
    b * vx + d * vy = lmaj * vy ∧
    r.angle =
      atan2 (vy / (if Real.sqrt (vx * vx + vy * vy) = 0 then 1
                   else Real.sqrt (vx * vx + vy * vy)))
            (vx / (if Real.sqrt (vx * vx + vy * vy) = 0 then 1
                   else Real.sqrt (vx * vx + vy * vy)))

/-- Concrete node at the origin, for the zero-span extent example. -/
def nodeO : NodeRec := ⟨"O", .fin 0, .fin 0, .null⟩

/-- Concrete node without finite coordinates. -/
def nodeNaN : NodeRec := ⟨"N", .nan, .nan, .null⟩

/-- Concrete node `A` at `(0, 0)` for the picker example. -/
def nA : NodeRec := ⟨"A", .fin 0, .fin 0, .null⟩

/-- Concrete node `B` at `(10, 10)` for the picker example. -/
def nB : NodeRec := ⟨"B", .fin 10, .fin 10, .null⟩

/-- Concrete node `C` at `(100, 100)` for the picker example. -/
def nC : NodeRec := ⟨"C", .fin 100, .fin 100, .null⟩

/-- The computed extent of the three picker-example nodes. -/
def ext3 : ExtQ := ⟨-8, 108, -8, 108⟩

/-- Concrete raw node `A` at `(0, 0)` in cluster `"1"`. -/
def rawA : RawNode :=
  { id := some (.str "A"), x_KPCA := some (.num (.fin 0)),
    y_KPCA := some (.num (.fin 0)), cluster := some (.str "1") }

/-- Concrete raw node `B` at `(10, 10)` in cluster `"1"`. -/
def rawB : RawNode :=
  { id := some (.str "B"), x_KPCA := some (.num (.fin 10)),
    y_KPCA := some (.num (.fin 10)), cluster := some (.str "1") }

/-- Concrete raw edge `A → B` with weight `2`. -/
def rawE : RawEdge :=
  { source := some (.str "A"), target := some (.str "B"),
    weight := some (.num (.fin 2)) }

/-- Concrete raw edge `A → B` whose weight cell is the non-numeric
string `"abc"`. -/
def rawEAbc : RawEdge :=
  { source := some (.str "A"), target := some (.str "B"),
    weight := some (.str "abc") }

/-- Concrete raw edge `A → B` with no weight cell at all. -/
def rawENoW : RawEdge :=
  { source := some (.str "A"), target := some (.str "B") }

/-- Concrete point cloud for the ellipse-fit witness. -/
noncomputable def ptsW : List PtR := [⟨0, 0⟩, ⟨1, 0⟩, ⟨0, 1⟩]

theorem jadd_fin (a b : ℚ) : JNum.jadd (.fin a) (.fin b) = .fin (a + b) := rfl

theorem jsub_fin (a b : ℚ) : JNum.jsub (.fin a) (.fin b) = .fin (a - b) := by
  simp [JNum.jsub, JNum.jneg, JNum.jadd, sub_eq_add_neg]

theorem jmul_fin (a b : ℚ) : JNum.jmul (.fin a) (.fin b) = .fin (a * b) := rfl

theorem jdiv_fin (a b : ℚ) (h : b ≠ 0) :
    JNum.jdiv (.fin a) (.fin b) = .fin (a / b) := by
  simp [JNum.jdiv, h]

theorem jor_fin_one (a : ℚ) :
    JNum.jor (.fin a) (.fin 1) = .fin (if a = 0 then 1 else a) := by
  by_cases h : a = 0 <;> simp [JNum.jor, JNum.truthy, h]

theorem ifSpan_ne_zero (a : ℚ) : (if a = 0 then (1 : ℚ) else a) ≠ 0 := by
  by_cases h : a = 0 <;> simp [h]

theorem sxJ_toJ (e : ExtQ) (W x : ℚ) :
    sxJ e.toJ W (.fin x) = .fin (sxQ e W x) := by
  show JNum.jadd
      (JNum.jmul
        (JNum.jdiv (JNum.jsub (.fin x) (.fin e.xmin))
          (JNum.jor (JNum.jsub (.fin e.xmax) (.fin e.xmin)) (.fin 1)))
        (.fin (W - 20)))
      (.fin 10) = .fin (sxQ e W x)
  rw [jsub_fin e.xmax e.xmin, jor_fin_one, jsub_fin,
    jdiv_fin _ _ (ifSpan_ne_zero _), jmul_fin, jadd_fin, sxQ]

theorem syJ_toJ (e : ExtQ) (H y : ℚ) :
    syJ e.toJ H (.fin y) = .fin (syQ e H y) := by
  show JNum.jadd
      (JNum.jmul
        (JNum.jsub (.fin 1)
          (JNum.jdiv (JNum.jsub (.fin y) (.fin e.ymin))
            (JNum.jor (JNum.jsub (.fin e.ymax) (.fin e.ymin)) (.fin 1))))
        (.fin (H - 20)))
      (.fin 10) = .fin (syQ e H y)
  rw [jsub_fin e.ymax e.ymin, jor_fin_one, jsub_fin y,
    jdiv_fin _ _ (ifSpan_ne_zero _), jsub_fin, jmul_fin, jadd_fin, syQ]

/-- **C7.** For every extent whose span on an axis is zero, the
mapping functions treat that axis's denominator as 1, so every finite
data coordinate maps to a finite pixel coordinate. -/
theorem zero_span_mapping_finite (e : ExtQ) (W H x y : ℚ) :
    (e.xmax = e.xmin →
      sxJ e.toJ W (.fin x) = .fin ((x - e.xmin) / 1 * (W - 20) + 10) ∧
      (sxJ e.toJ W (.fin x)).isFinite = true) ∧
    (e.ymax = e.ymin →
      syJ e.toJ H (.fin y) = .fin ((1 - (y - e.ymin) / 1) * (H - 20) + 10) ∧
      (syJ e.toJ H (.fin y)).isFinite = true) := by
  constructor
  · intro hx
    have h0 : e.xmax - e.xmin = 0 := by rw [hx, sub_self]
    rw [sxJ_toJ]
    simp [sxQ, h0, JNum.isFinite]
  · intro hy
    have h0 : e.ymax - e.ymin = 0 := by rw [hy, sub_self]
    rw [syJ_toJ]
    simp [syQ, h0, JNum.isFinite]

/-- Witness for C7 at a concrete degenerate extent. -/
theorem zero_span_mapping_finite_witness :
    sxJ (ExtQ.toJ ⟨5, 5, 0, 2⟩) 900 (.fin 7) = .fin ((7 - 5) / 1 * (900 - 20) + 10) ∧
    (sxJ (ExtQ.toJ ⟨5, 5, 0, 2⟩) 900 (.fin 7)).isFinite = true :=
  (zero_span_mapping_finite ⟨5, 5, 0, 2⟩ 900 650 7 0).1 rfl

/-- **C9.** For any extent with nonzero spans and any canvas strictly
wider and taller than the margins, mapping a pixel point to data space
by the inverse `toData` and back through `sx`/`sy` returns the pixel
point exactly (the exact-arithmetic form of "within floating-point
tolerance"). -/
theorem toScreen_toData_roundtrip (e : ExtQ) (W H px py : ℚ)
    (hx : e.xmax - e.xmin ≠ 0) (hy : e.ymax - e.ymin ≠ 0)
    (hW : W ≠ 20) (hH : H ≠ 20) :
    sxJ e.toJ W (.fin (toDataX e W px)) = .fin px ∧
    syJ e.toJ H (.fin (toDataY e H py)) = .fin py := by
  have hW' : W - 20 ≠ 0 := sub_ne_zero.mpr hW
  have hH' : H - 20 ≠ 0 := sub_ne_zero.mpr hH
  constructor
  · rw [sxJ_toJ]
    congr 1
    rw [sxQ, toDataX, if_neg hx]
    field_simp
    ring
  · rw [syJ_toJ]
    congr 1
    rw [syQ, toDataY, if_neg hy]
    field_simp
    ring

/-- Witness for C9 at a concrete extent, canvas and pixel point. -/
theorem toScreen_toData_roundtrip_witness :
    sxJ (ExtQ.toJ ⟨-8, 108, -8, 108⟩) 900 (.fin (toDataX ⟨-8, 108, -8, 108⟩ 900 137)) = .fin 137 ∧
    syJ (ExtQ.toJ ⟨-8, 108, -8, 108⟩) 650 (.fin (toDataY ⟨-8, 108, -8, 108⟩ 650 41)) = .fin 41 :=
  toScreen_toData_roundtrip ⟨-8, 108, -8, 108⟩ 900 650 137 41
    (by norm_num) (by norm_num) (by norm_num) (by norm_num)

theorem extentF_cons (nodes : List NodeRec) (a c : ℚ) (as cs : List ℚ)
    (hx : finVals (nodes.map NodeRec.x) = a :: as)
    (hy : finVals (nodes.map NodeRec.y) = c :: cs) :
    extentF nodes = ExtQ.toJ
      ⟨qListMin a as - padOf (qListMax a as - qListMin a as),
       qListMax a as + padOf (qListMax a as - qListMin a as),
       qListMin c cs - padOf (qListMax c cs - qListMin c cs),
       qListMax c cs + padOf (qListMax c cs - qListMin c cs)⟩ := by
  cases nodes with
  | nil => simp [finVals] at hx
  | cons n ns =>
    simp only [extentF, hx, hy, jsMinList, jsMaxList, jsub_fin, jor_fin_one,
      jmul_fin, jadd_fin, ExtQ.toJ, qListMin, qListMax, padOf]

/-- **C6 counterexample.** For a single node at the origin the span is
zero on both axes, and the code pads by `0.08·1 = 2/25` rather than by
8% of the zero span: the computed extent is not the unpadded
`[0,0]×[0,0]` box the claim's formula gives. -/
theorem extent_pad_counterexample :
    extentF [nodeO] = ExtQ.toJ ⟨-(2/25), 2/25, -(2/25), 2/25⟩ ∧
    extentF [nodeO] ≠ ExtQ.toJ ⟨0, 0, 0, 0⟩ := by
  have h := extentF_cons [nodeO] 0 0 [] [] rfl rfl
  rw [h]
  constructor
  · norm_num [qListMin, qListMax, padOf, ExtQ.toJ]
  · norm_num [qListMin, qListMax, padOf, ExtQ.toJ]

/-- **C6 (amended).** The extent of an empty node list is
`[-1,1]×[-1,1]`; for a node list with at least one finite x and one
finite y coordinate, the extent is the bounding box of the finite
coordinates padded on each axis by 8% of that axis's span, with a zero
span replaced by 1 before the 8% factor. -/
theorem extent_amended :
    (extentF [] = ExtQ.toJ ⟨-1, 1, -1, 1⟩) ∧
    (∀ (nodes : List NodeRec) (a c : ℚ) (as cs : List ℚ),
      finVals (nodes.map NodeRec.x) = a :: as →
      finVals (nodes.map NodeRec.y) = c :: cs →
      extentF nodes = ExtQ.toJ
        ⟨qListMin a as - padOf (qListMax a as - qListMin a as),
         qListMax a as + padOf (qListMax a as - qListMin a as),
         qListMin c cs - padOf (qListMax c cs - qListMin c cs),
         qListMax c cs + padOf (qListMax c cs - qListMin c cs)⟩) :=
  ⟨rfl, extentF_cons⟩

/-- Witness for C6 at the three-node picker example. -/
theorem extent_amended_witness :
    extentF [nA, nB, nC] = ExtQ.toJ ⟨-8, 108, -8, 108⟩ := by
  have h := extent_amended.2 [nA, nB, nC] 0 0 [10, 100] [10, 100] rfl rfl
  rw [h]
  norm_num [qListMin, qListMax, padOf, ExtQ.toJ]

theorem isFinite_iff (j : JNum) : j.isFinite = true ↔ ∃ q, j = .fin q := by
  cases j <;> simp [JNum.isFinite]

theorem edgeSegments_eq_filterMap (edges : List EdgeRec) (nodes : List NodeRec) :
    edgeSegments edges nodes = edges.filterMap (segOf nodes) := by
  suffices h : ∀ (es : List EdgeRec) (acc : List Seg),
      es.foldl (fun segs e => match segOf nodes e with
        | some s => segs ++ [s]
        | none => segs) acc = acc ++ es.filterMap (segOf nodes) by
    simpa [edgeSegments] using h edges []
  intro es
  induction es with
  | nil => simp
  | cons e es ih =>
    intro acc
    cases h : segOf nodes e <;> simp [List.filterMap_cons, h, ih]

set_option maxHeartbeats 3200000 in
theorem segOf_eq_some_iff (nodes : List NodeRec) (e : EdgeRec) (s : Seg) :
    segOf nodes e = some s ↔
      ∃ a b, nodeById nodes e.source_id = some a ∧
        nodeById nodes e.target_id = some b ∧
        a.x = .fin s.x1 ∧ a.y = .fin s.y1 ∧ b.x = .fin s.x2 ∧ b.y = .fin s.y2 ∧
        s.w = JNum.jor e.weight (.fin 0) := by
  obtain ⟨s1, s2, s3, s4, s5⟩ := s
  unfold segOf
  rcases hA : nodeById nodes e.source_id with _ | a
  · simp
  rcases hB : nodeById nodes e.target_id with _ | b
  · simp
  rcases hax : a.x with x1 | _ | _ | _ <;>
    rcases hay : a.y with y1 | _ | _ | _ <;>
      rcases hbx : b.x with x2 | _ | _ | _ <;>
        rcases hby : b.y with y2 | _ | _ | _ <;>
          simp [hax, hay, hbx, hby, eq_comm, and_assoc]

theorem segOf_isSome_iff (nodes : List NodeRec) (e : EdgeRec) :
    (∃ s, segOf nodes e = some s) ↔
      ∃ a b, nodeById nodes e.source_id = some a ∧
        nodeById nodes e.target_id = some b ∧
        a.x.isFinite = true ∧ a.y.isFinite = true ∧
        b.x.isFinite = true ∧ b.y.isFinite = true := by
  constructor
  · rintro ⟨s, hs⟩
    rcases (segOf_eq_some_iff nodes e s).1 hs with
      ⟨a, b, hA, hB, hax, hay, hbx, hby, -⟩
    exact ⟨a, b, hA, hB, by simp [hax, JNum.isFinite], by simp [hay, JNum.isFinite],
      by simp [hbx, JNum.isFinite], by simp [hby, JNum.isFinite]⟩
  · rintro ⟨a, b, hA, hB, hax, hay, hbx, hby⟩
    rcases (isFinite_iff _).1 hax with ⟨x1, hx1⟩
    rcases (isFinite_iff _).1 hay with ⟨y1, hy1⟩
    rcases (isFinite_iff _).1 hbx with ⟨x2, hx2⟩
    rcases (isFinite_iff _).1 hby with ⟨y2, hy2⟩
    exact ⟨⟨x1, y1, x2, y2, JNum.jor e.weight (.fin 0)⟩,
      (segOf_eq_some_iff nodes e _).2 ⟨a, b, hA, hB, hx1, hy1, hx2, hy2, rfl⟩⟩

/-- **C4.** The edge-segment list is exactly the filter-map of the
edges through `segOf`: an edge contributes a segment record precisely
when both endpoint ids resolve in the node map and all four resolved
coordinates are finite, the record carrying those coordinates and the
`|| 0`-guarded weight; any other edge is silently dropped. -/
theorem edgeSegments_filter_correct :
    (∀ (edges : List EdgeRec) (nodes : List NodeRec),
      edgeSegments edges nodes = edges.filterMap (segOf nodes)) ∧
    (∀ (nodes : List NodeRec) (e : EdgeRec),
      (∃ s, segOf nodes e = some s) ↔
        ∃ a b, nodeById nodes e.source_id = some a ∧
          nodeById nodes e.target_id = some b ∧
          a.x.isFinite = true ∧ a.y.isFinite = true ∧
          b.x.isFinite = true ∧ b.y.isFinite = true) ∧
    (∀ (nodes : List NodeRec) (e : EdgeRec) (s : Seg),
      segOf nodes e = some s ↔
        ∃ a b, nodeById nodes e.source_id = some a ∧
          nodeById nodes e.target_id = some b ∧
          a.x = .fin s.x1 ∧ a.y = .fin s.y1 ∧ b.x = .fin s.x2 ∧ b.y = .fin s.y2 ∧
          s.w = JNum.jor e.weight (.fin 0)) :=
  ⟨edgeSegments_eq_filterMap, segOf_isSome_iff, segOf_eq_some_iff⟩

/-- **C2 counterexample.** An edge whose weight cell is the
non-numeric string `"abc"` parses to weight `NaN`, not 1, and the
segment it contributes carries weight 0, not 1. -/
theorem edge_weight_counterexample :
    (eNormOne rawEAbc).weight = .nan ∧
    (eNormOne rawEAbc).weight ≠ .fin 1 ∧
    (edgeSegments (eNorm [rawEAbc]) (nNorm [rawA, rawB])).map Seg.w = [.fin 0] ∧
    (edgeSegments (eNorm [rawEAbc]) (nNorm [rawA, rawB])).map Seg.w ≠ [.fin 1] := by
  exact ⟨by decide, by decide, by decide, by decide⟩

/-- **C2 (amended).** If the weight cell is absent (the whole alias
chain is nullish), the parsed edge weight is 1; if it is a string that
does not parse as a number, the parsed weight is `NaN`, and the
segment such an edge contributes carries weight 0 (via the `|| 0`
guard), not 1. -/
theorem edge_weight_default_amended :
    (∀ r : RawEdge, rawEdgeWeightVal r = none → (eNormOne r).weight = .fin 1) ∧
    (∀ (r : RawEdge) (s : String), rawEdgeWeightVal r = some (.str s) →
      strToJNum s = .nan → (eNormOne r).weight = .nan) ∧
    (∀ (nodes : List NodeRec) (e : EdgeRec) (s : Seg),
      segOf nodes e = some s → e.weight = .nan → s.w = .fin 0) := by
  refine ⟨?_, ?_, ?_⟩
  · intro r h
    simp [eNormOne, h, coalD, jsToNumber, jvalToNumber]
  · intro r s h hs
    simp [eNormOne, h, coalD, jsToNumber, jvalToNumber, hs]
  · intro nodes e s hseg hw
    rcases (segOf_eq_some_iff nodes e s).1 hseg with ⟨a, b, -, -, -, -, -, -, hwv⟩
    rw [hwv, hw]
    rfl

/-- Witness for C2 at concrete edges: one with no weight cell, one
with the non-numeric weight string `"abc"`. -/
theorem edge_weight_default_amended_witness :
    (eNormOne rawENoW).weight = .fin 1 ∧ (eNormOne rawEAbc).weight = .nan ∧
    (segOf (nNorm [rawA, rawB]) ⟨"A", "B", .nan⟩).map Seg.w = some (.fin 0) := by
  refine ⟨edge_weight_default_amended.1 rawENoW (by decide),
    edge_weight_default_amended.2.1 rawEAbc "abc" (by decide) (by decide), ?_⟩
  have h : ∀ s, segOf (nNorm [rawA, rawB]) ⟨"A", "B", .nan⟩ = some s → s.w = .fin 0 :=
    fun s hs => edge_weight_default_amended.2.2 _ _ s hs rfl
  cases hseg : segOf (nNorm [rawA, rawB]) ⟨"A", "B", .nan⟩ with
  | none => exact absurd hseg (by decide)
  | some s => simp [h s hseg]

theorem jlt_fin (a b : ℚ) : JNum.jlt (.fin a) (.fin b) = decide (a < b) := rfl

theorem pickStep_fin (e : ExtQ) (W H cx cy : ℚ) (best : String × JNum)
    (n : NodeRec) (x y : ℚ) (hx : n.x = .fin x) (hy : n.y = .fin y) :
    pickStep e.toJ W H cx cy best n = pickStepQ e W H cx cy best (n.id, x, y) := by
  simp only [pickStep, hx, hy, sxJ_toJ, syJ_toJ, jsub_fin, jmul_fin, jadd_fin,
    pickStepQ, d2Q]

theorem pickFold_eq_finNodes (e : ExtQ) (W H cx cy : ℚ) :
    ∀ (nodes : List NodeRec) (acc : String × JNum),
      nodes.foldl (pickStep e.toJ W H cx cy) acc =
        (finNodes nodes).foldl (pickStepQ e W H cx cy) acc := by
  intro nodes
  induction nodes with
  | nil => intro acc; rfl
  | cons n ns ih =>
    intro acc
    rcases hx : n.x with x | _ | _ | _ <;> rcases hy : n.y with y | _ | _ | _ <;>
      [ (rw [List.foldl_cons, pickStep_fin e W H cx cy acc n x y hx hy]
         have hfn : finNodes (n :: ns) = (n.id, x, y) :: finNodes ns := by
           simp [finNodes, List.filterMap_cons, hx, hy]
         rw [hfn, List.foldl_cons, ih]);
        skip; skip; skip; skip; skip; skip; skip;
        skip; skip; skip; skip; skip; skip; skip; skip ] <;>
      simp [List.foldl_cons, pickStep, finNodes, List.filterMap_cons, hx, hy, ih]

theorem pickGo_eq_argAux (e : ExtQ) (W H cx cy : ℚ) :
    ∀ (l : List (String × ℚ × ℚ)) (m : String × ℚ × ℚ),
      ∃ m', l.foldl (List.argAux fun b c => d2Q e W H cx cy b < d2Q e W H cx cy c)
              (some m) = some m' ∧
        l.foldl (pickStepQ e W H cx cy) (m.1, .fin (d2Q e W H cx cy m)) =
          (m'.1, .fin (d2Q e W H cx cy m')) := by
  intro l
  induction l with
  | nil => intro m; exact ⟨m, rfl, rfl⟩
  | cons b l ih =>
    intro m
    by_cases hbm : d2Q e W H cx cy b < d2Q e W H cx cy m
    · have h1 : List.argAux (fun p q => d2Q e W H cx cy p < d2Q e W H cx cy q)
          (some m) b = some b := by
        simp [List.argAux, hbm]
      have h2 : pickStepQ e W H cx cy (m.1, .fin (d2Q e W H cx cy m)) b
          = (b.1, .fin (d2Q e W H cx cy b)) := by
        simp [pickStepQ, jlt_fin, hbm]
      rcases ih b with ⟨m', hm1, hm2⟩
      exact ⟨m', by rw [List.foldl_cons, h1, hm1], by rw [List.foldl_cons, h2, hm2]⟩
    · have h1 : List.argAux (fun p q => d2Q e W H cx cy p < d2Q e W H cx cy q)
          (some m) b = some m := by
        simp [List.argAux, hbm]
      have h2 : pickStepQ e W H cx cy (m.1, .fin (d2Q e W H cx cy m)) b
          = (m.1, .fin (d2Q e W H cx cy m)) := by
        simp [pickStepQ, jlt_fin, hbm]
      rcases ih m with ⟨m', hm1, hm2⟩
      exact ⟨m', by rw [List.foldl_cons, h1, hm1], by rw [List.foldl_cons, h2, hm2]⟩

theorem pickId_eq_specPick (nodes : List NodeRec) (e : ExtQ) (W H cx cy : ℚ) :
    pickId nodes e.toJ W H cx cy = specPick nodes e W H cx cy := by
  unfold pickId specPick
  rw [pickFold_eq_finNodes]
  cases hf : finNodes nodes with
  | nil => rfl
  | cons f fs =>
    rw [List.foldl_cons]
    have h0 : pickStepQ e W H cx cy ("", .inf) f = (f.1, .fin (d2Q e W H cx cy f)) := by
      simp [pickStepQ, JNum.jlt]
    rw [h0]
    rcases pickGo_eq_argAux e W H cx cy fs f with ⟨m', hm1, hm2⟩
    rw [hm2]
    unfold List.argmin
    rw [List.foldl_cons]
    have hstart : List.argAux (fun b c => d2Q e W H cx cy b < d2Q e W H cx cy c)
        none f = some f := rfl
    rw [hstart, hm1]

theorem pickStep_skip (e : Extent) (W H cx cy : ℚ) (best : String × JNum)
    (n : NodeRec)
    (h : (match n.x, n.y with
          | .fin x, .fin y => some (n.id, x, y)
          | _, _ => none) = (none : Option (String × ℚ × ℚ))) :
    pickStep e W H cx cy best n = best := by
  rcases hx : n.x with x | _ | _ | _ <;> rcases hy : n.y with y | _ | _ | _ <;>
    simp_all [pickStep]

theorem pickFold_skip_all (e : Extent) (W H cx cy : ℚ) :
    ∀ nodes : List NodeRec, finNodes nodes = [] →
      ∀ acc : String × JNum, nodes.foldl (pickStep e W H cx cy) acc = acc := by
  intro nodes
  induction nodes with
  | nil => intro _ acc; rfl
  | cons n ns ih =>
    intro h acc
    have hall := List.filterMap_eq_nil_iff.1 h
    have h2 : finNodes ns = [] :=
      List.filterMap_eq_nil_iff.2 fun a ha => hall a (List.mem_cons_of_mem n ha)
    rw [List.foldl_cons, pickStep_skip e W H cx cy acc n (hall n (List.mem_cons_self n ns))]
    exact ih h2 acc

theorem pickId_no_fin (nodes : List NodeRec) (e : Extent) (W H cx cy : ℚ)
    (h : finNodes nodes = []) : pickId nodes e W H cx cy = "" := by
  unfold pickId
  rw [pickFold_skip_all e W H cx cy nodes h]

/-- **C3.** The nearest-point pick equals the specification pick: over
exactly the finite-coordinate nodes projected by the active coordinate
mapper, it returns the id of the node of minimum squared pixel distance
to the click, with ties resolved to the first node in list order
(`List.argmin` keeps the earlier element on ties) and the "none" result
(empty id) exactly when no node has finite coordinates; in particular,
for nodes at (0,0), (10,10), (100,100) under the computed extent, a
click at the screen position of (10,10) picks that node. -/
theorem pick_nearest_correct :
    (∀ (nodes : List NodeRec) (e : ExtQ) (W H cx cy : ℚ),
      pickId nodes e.toJ W H cx cy = specPick nodes e W H cx cy) ∧
    (∀ (nodes : List NodeRec) (e : ExtQ) (W H cx cy : ℚ) (t : String × ℚ × ℚ),
      t ∈ (finNodes nodes).argmin (d2Q e W H cx cy) →
      ∀ u ∈ finNodes nodes, d2Q e W H cx cy t ≤ d2Q e W H cx cy u) ∧
    (∀ (nodes : List NodeRec) (e : ExtQ) (W H cx cy : ℚ),
      finNodes nodes = [] → specPick nodes e W H cx cy = "") ∧
    pickId [nA, nB, nC] ext3.toJ 900 650 (sxQ ext3 900 10) (syQ ext3 650 10) = "B" := by
  refine ⟨pickId_eq_specPick, ?_, ?_, ?_⟩
  · intro nodes e W H cx cy t ht u hu
    exact List.le_of_mem_argmin hu ht
  · intro nodes e W H cx cy h
    unfold specPick
    rw [h]
    rfl
  · rw [pickId_eq_specPick]
    unfold specPick
    norm_num [finNodes, List.filterMap_cons, nA, nB, nC, List.argmin, List.argAux,
      List.foldl_cons, List.foldl_nil, d2Q, sxQ, syQ, ext3]

/-- Witness for C3: a node list with no finite coordinates yields the
empty ("none") pick. -/
theorem pick_nearest_correct_witness :
    specPick [nodeNaN] ⟨0, 1, 0, 1⟩ 900 650 0 0 = "" :=
  pick_nearest_correct.2.2.1 [nodeNaN] ⟨0, 1, 0, 1⟩ 900 650 0 0 (by decide)

/-- **C10.** A canvas click leaves the selection unchanged when the
pick result is the falsy empty string — in particular when no node has
finite coordinates, or when the minimum-distance node's normalized id
is the empty string — and otherwise replaces it with the picked
nonempty id; hence a click never newly selects the empty id. -/
theorem click_selection_guard :
    (∀ (nodes : List NodeRec) (e : Extent) (W H cx cy : ℚ) (sel : String),
      pickId nodes e W H cx cy = "" → clickUpdate nodes e W H cx cy sel = sel) ∧
    (∀ (nodes : List NodeRec) (e : Extent) (W H cx cy : ℚ) (sel : String),
      finNodes nodes = [] → clickUpdate nodes e W H cx cy sel = sel) ∧
    (∀ (nodes : List NodeRec) (e : ExtQ) (W H cx cy : ℚ) (sel : String)
        (t : String × ℚ × ℚ),
      (finNodes nodes).argmin (d2Q e W H cx cy) = some t → t.1 = "" →
      clickUpdate nodes e.toJ W H cx cy sel = sel) ∧
    (∀ (nodes : List NodeRec) (e : Extent) (W H cx cy : ℚ) (sel : String),
      clickUpdate nodes e W H cx cy sel = sel ∨
        (clickUpdate nodes e W H cx cy sel = pickId nodes e W H cx cy ∧
          pickId nodes e W H cx cy ≠ "")) := by
  have hbase : ∀ (nodes : List NodeRec) (e : Extent) (W H cx cy : ℚ) (sel : String),
      pickId nodes e W H cx cy = "" → clickUpdate nodes e W H cx cy sel = sel := by
    intro nodes e W H cx cy sel h
    simp [clickUpdate, h]
  refine ⟨hbase, ?_, ?_, ?_⟩
  · intro nodes e W H cx cy sel h
    exact hbase nodes e W H cx cy sel (pickId_no_fin nodes e W H cx cy h)
  · intro nodes e W H cx cy sel t ht h0
    apply hbase
    rw [pickId_eq_specPick]
    unfold specPick
    rw [ht]
    exact h0
  · intro nodes e W H cx cy sel
    by_cases h : pickId nodes e W H cx cy = ""
    · exact Or.inl (hbase nodes e W H cx cy sel h)
    · exact Or.inr ⟨by simp [clickUpdate, h], h⟩

/-- Witness for C10: a click with no finite-coordinate node leaves a
concrete selection unchanged. -/
theorem click_selection_guard_witness :
    clickUpdate [nodeNaN] (ExtQ.toJ ⟨0, 1, 0, 1⟩) 900 650 0 0 "keep" = "keep" :=
  click_selection_guard.2.1 [nodeNaN] (ExtQ.toJ ⟨0, 1, 0, 1⟩) 900 650 0 0 "keep"
    (by decide)

theorem getC_updC_same (c : String) (p : Option (ℚ × ℚ)) :
    ∀ acc, getC (updC c p acc) c = some (((getC acc c).getD []) ++ p.toList) := by
  intro acc
  induction acc with
  | nil => simp [updC, getC]
  | cons hd tl ih =>
    obtain ⟨c', ps⟩ := hd
    by_cases h : c' = c <;> simp [updC, getC, h, ih]

theorem getC_updC_other (c c' : String) (p : Option (ℚ × ℚ)) (hne : c' ≠ c) :
    ∀ acc, getC (updC c p acc) c' = getC acc c' := by
  intro acc
  induction acc with
  | nil => simp [updC, getC, Ne.symm hne]
  | cons hd tl ih =>
    obtain ⟨c'', ps⟩ := hd
    by_cases h : c'' = c <;> by_cases h' : c'' = c' <;>
      simp_all [updC, getC]

theorem memberPts_cons (n : NodeRec) (l : List NodeRec) (c : String) :
    memberPts (n :: l) c =
      (if clusterStr n = c then (finPt n).toList else []) ++ memberPts l c := by
  by_cases h : clusterStr n = c <;> cases hfp : finPt n <;>
    simp [memberPts, List.filterMap_cons, h, hfp]

theorem getC_clusterPts_aux (c : String) (hc : c ≠ "nan") :
    ∀ (nodes : List NodeRec) (acc : List (String × List (ℚ × ℚ))),
      getC (nodes.foldl clusterStep acc) c =
        (if (∃ n ∈ nodes, clusterStr n = c) ∨ (getC acc c).isSome = true
         then some (((getC acc c).getD []) ++ memberPts nodes c)
         else none) := by
  intro nodes
  induction nodes with
  | nil =>
    intro acc
    cases h : getC acc c <;> simp [memberPts, h]
  | cons n ns ih =>
    intro acc
    rw [List.foldl_cons]
    by_cases hn : clusterStr n = "nan"
    · have hnc : clusterStr n ≠ c := fun h => hc (h.symm.trans hn)
      have hstep : clusterStep acc n = acc := by
        simp [clusterStep, hn]
      rw [hstep, ih acc,
        show memberPts (n :: ns) c = memberPts ns c by simp [memberPts_cons, hnc]]
      exact if_congr (by simp [List.mem_cons, hnc]) rfl rfl
    · have hstep : clusterStep acc n = updC (clusterStr n) (finPt n) acc := by
        simp [clusterStep, hn]
      rw [hstep, ih (updC (clusterStr n) (finPt n) acc)]
      by_cases hcc : clusterStr n = c
      · rw [hcc, getC_updC_same c (finPt n) acc]
        rw [if_pos (Or.inr Option.isSome_some), if_pos (Or.inl ⟨n, List.mem_cons_self n ns, hcc⟩)]
        rw [memberPts_cons, if_pos hcc]
        cases h : getC acc c <;> simp [h, List.append_assoc]
      · rw [getC_updC_other (clusterStr n) c (finPt n) (fun h => hcc h.symm) acc]
        rw [show memberPts (n :: ns) c = memberPts ns c by simp [memberPts_cons, hcc]]
        exact if_congr (by simp [List.mem_cons, hcc]) rfl rfl

theorem getC_clusterPts (nodes : List NodeRec) (c : String) (hc : c ≠ "nan") :
    getC (clusterPts nodes) c =
      (if ∃ n ∈ nodes, clusterStr n = c then some (memberPts nodes c) else none) := by
  have h := getC_clusterPts_aux c hc nodes []
  simpa [clusterPts, getC] using h

theorem getC_clusterPts_nan (nodes : List NodeRec) :
    getC (clusterPts nodes) "nan" = none := by
  suffices h : ∀ (ns : List NodeRec) (acc : List (String × List (ℚ × ℚ))),
      getC acc "nan" = none →
      getC (ns.foldl clusterStep acc) "nan" = none by
    exact h nodes [] rfl
  intro ns
  induction ns with
  | nil => intro acc h; exact h
  | cons n ns ih =>
    intro acc h
    rw [List.foldl_cons]
    by_cases hn : clusterStr n = "nan"
    · have hstep : clusterStep acc n = acc := by
        simp [clusterStep, hn]
      rw [hstep]
      exact ih acc h
    · have hstep : clusterStep acc n = updC (clusterStr n) (finPt n) acc := by
        simp [clusterStep, hn]
      rw [hstep]
      exact ih _ (by rw [getC_updC_other (clusterStr n) "nan" (finPt n) (Ne.symm hn) acc]; exact h)

theorem keys_updC (c : String) (p : Option (ℚ × ℚ)) :
    ∀ l : List (String × List (ℚ × ℚ)),
      (updC c p l).map Prod.fst =
        (if c ∈ l.map Prod.fst then l.map Prod.fst else l.map Prod.fst ++ [c]) := by
  intro l
  induction l with
  | nil => simp [updC]
  | cons hd tl ih =>
    obtain ⟨c', ps⟩ := hd
    by_cases h : c' = c
    · simp [updC, h]
    · by_cases h2 : c ∈ tl.map Prod.fst <;>
        simp [updC, h, Ne.symm h, ih, h2, List.mem_cons]

theorem nodup_keys_updC (c : String) (p : Option (ℚ × ℚ))
    (l : List (String × List (ℚ × ℚ))) (h : (l.map Prod.fst).Nodup) :
    ((updC c p l).map Prod.fst).Nodup := by
  rw [keys_updC]
  by_cases h2 : c ∈ l.map Prod.fst
  · rwa [if_pos h2]
  · rw [if_neg h2, ← List.concat_eq_append]
    exact h.concat h2

theorem nodup_keys_clusterPts (nodes : List NodeRec) :
    ((clusterPts nodes).map Prod.fst).Nodup := by
  suffices h : ∀ (ns : List NodeRec) (acc : List (String × List (ℚ × ℚ))),
      (acc.map Prod.fst).Nodup → ((ns.foldl clusterStep acc).map Prod.fst).Nodup by
    exact h nodes [] (by simp)
  intro ns
  induction ns with
  | nil => intro acc h; exact h
  | cons n ns ih =>
    intro acc h
    rw [List.foldl_cons]
    by_cases hn : clusterStr n = "nan"
    · rw [show clusterStep acc n = acc by simp [clusterStep, hn]]
      exact ih acc h
    · rw [show clusterStep acc n = updC (clusterStr n) (finPt n) acc by
        simp [clusterStep, hn]]
      exact ih _ (nodup_keys_updC _ _ acc h)

theorem getC_of_mem : ∀ (l : List (String × List (ℚ × ℚ))),
    (l.map Prod.fst).Nodup → ∀ (c : String) (ps : List (ℚ × ℚ)),
      (c, ps) ∈ l → getC l c = some ps := by
  intro l
  induction l with
  | nil => intro _ c ps h; simp at h
  | cons hd tl ih =>
    intro hnd c ps hmem
    obtain ⟨c', ps'⟩ := hd
    rcases List.mem_cons.1 hmem with heq | htl
    · injection heq with h1 h2
      subst h1
      subst h2
      simp [getC]
    · have hnd' : (∀ x, (c', x) ∉ tl) ∧ (tl.map Prod.fst).Nodup := by
        simpa using hnd
      have hc : c' ≠ c := by
        rintro rfl
        exact hnd'.1 ps htl
      simp only [getC, if_neg hc]
      exact ih hnd'.2 c ps htl

theorem mem_of_getC : ∀ (l : List (String × List (ℚ × ℚ))) (c : String)
    (ps : List (ℚ × ℚ)), getC l c = some ps → (c, ps) ∈ l := by
  intro l
  induction l with
  | nil => intro c ps h; simp [getC] at h
  | cons hd tl ih =>
    intro c ps h
    obtain ⟨c', ps'⟩ := hd
    by_cases hc : c' = c
    · subst hc
      have h' : some ps' = some ps := by simpa [getC] using h
      injection h' with h''
      subst h''
      exact List.mem_cons_self _ _
    · simp only [getC, if_neg hc] at h
      exact List.mem_cons_of_mem _ (ih c ps h)

theorem clusterPts_keys_ne_nan (nodes : List NodeRec) :
    ∀ p ∈ clusterPts nodes, p.1 ≠ "nan" := by
  intro p hp hnan
  have h := getC_of_mem (clusterPts nodes) (nodup_keys_clusterPts nodes) p.1 p.2 hp
  rw [hnan, getC_clusterPts_nan nodes] at h
  cases h

theorem ellipseCids_mem_iff (nodes : List NodeRec) (c : String) :
    c ∈ ellipseCids true nodes ↔ c ≠ "nan" ∧ 2 < (memberPts nodes c).length := by
  unfold ellipseCids
  simp only [Bool.not_true, Bool.false_eq_true, if_false, List.mem_filterMap]
  constructor
  · rintro ⟨⟨c', ps⟩, hmem, hf⟩
    by_cases hl : 2 < ps.length
    · rw [if_pos hl] at hf
      have hf' : c' = c := by injection hf
      rw [hf'] at hmem
      have hcnan : c ≠ "nan" := clusterPts_keys_ne_nan nodes (c, ps) hmem
      have hget := getC_of_mem (clusterPts nodes) (nodup_keys_clusterPts nodes)
        c ps hmem
      rw [getC_clusterPts nodes c hcnan] at hget
      by_cases hocc : ∃ n ∈ nodes, clusterStr n = c
      · rw [if_pos hocc] at hget
        injection hget with hget
        subst hget
        exact ⟨hcnan, hl⟩
      · rw [if_neg hocc] at hget
        cases hget
    · rw [if_neg hl] at hf
      cases hf
  · rintro ⟨hcnan, hlen⟩
    have hocc : ∃ n ∈ nodes, clusterStr n = c := by
      by_contra hno
      have hnil : memberPts nodes c = [] := by
        refine List.filterMap_eq_nil_iff.2 fun n hn => ?_
        have hcn : clusterStr n ≠ c := fun hcn => hno ⟨n, hn, hcn⟩
        simp [if_neg hcn]
      rw [hnil] at hlen
      simp at hlen
    have hget : getC (clusterPts nodes) c = some (memberPts nodes c) := by
      rw [getC_clusterPts nodes c hcnan, if_pos hocc]
    exact ⟨(c, memberPts nodes c), mem_of_getC _ _ _ hget, by rw [if_pos hlen]⟩

theorem ellipsesF_map_cid (se : Bool) (nodes : List NodeRec) :
    (ellipsesF se nodes).map EllipseOut.cid = ellipseCids se nodes := by
  unfold ellipsesF ellipseCids
  cases se
  · rfl
  · simp only [Bool.not_true, Bool.false_eq_true, if_false]
    rw [List.map_filterMap]
    refine List.filterMap_congr fun p _ => ?_
    by_cases h : 2 < p.2.length <;> simp [h]

/-- **C5.** A raw "no cluster" label (absent/null/blank or a
case-insensitive `nan`/`none`/`null` string) normalizes to the null
cluster; the assembled ellipse list carries exactly one cluster id per
distinct stringified label other than `"nan"` with more than 2 finite
member points; and, end to end, the two-node cluster-"1" scene with
one A→B edge of weight 2 yields exactly one edge segment and zero
ellipses. -/
theorem cluster_ellipses_correct :
    (∀ r : RawNode, isNoClusterLabel r = true → (nNormOne r).cluster = .null) ∧
    (∀ (nodes : List NodeRec) (c : String),
      c ∈ ellipseCids true nodes ↔ c ≠ "nan" ∧ 2 < (memberPts nodes c).length) ∧
    (∀ (se : Bool) (nodes : List NodeRec),
      (ellipsesF se nodes).map EllipseOut.cid = ellipseCids se nodes) ∧
    (ellipsesF true (nNorm [rawA, rawB]) = [] ∧
      edgeSegments (eNorm [rawE]) (nNorm [rawA, rawB]) = [⟨0, 0, 10, 10, .fin 2⟩]) := by
  refine ⟨?_, ellipseCids_mem_iff, ellipsesF_map_cid, ?_, by decide⟩
  · intro r h
    unfold isNoClusterLabel at h
    unfold nNormOne
    cases hcv : coalD (rawNodeClusterVal r) .null with
    | num j => rw [hcv] at h; cases h
    | null => simp [hcv]
    | str s =>
      rw [hcv] at h
      have h' : jsTrim s = "" ∨ jsLower (jsTrim s) = "nan" ∨
          jsLower (jsTrim s) = "none" ∨ jsLower (jsTrim s) = "null" := by
        simpa [or_assoc] using h
      simp [hcv, h']
  · have hmap := ellipsesF_map_cid true (nNorm [rawA, rawB])
    rw [show ellipseCids true (nNorm [rawA, rawB]) = [] from by decide] at hmap
    exact List.map_eq_nil_iff.1 hmap

/-- Witness for C5: a raw node whose cluster cell is the string
`" NaN "` normalizes to the null cluster. -/
theorem cluster_ellipses_correct_witness :
    (nNormOne { cluster := some (.str " NaN ") }).cluster = .null :=
  cluster_ellipses_correct.1 { cluster := some (.str " NaN ") } (by decide)

theorem jround_intCast (n : ℤ) : jround (n : ℚ) = n := by
  rw [jround, Int.floor_eq_iff]
  constructor <;> [skip; push_cast] <;> linarith

theorem jround_mono {a b : ℚ} (h : a ≤ b) : jround a ≤ jround b :=
  Int.floor_mono (by linarith)

theorem interp2_self (p : ℚ × String) (t : ℚ) : interp2 p p t = hexToRGB p.2 := by
  rcases h : hexToRGB p.2 with ⟨r, g, b⟩
  simp [interp2, h, jround_intCast]

theorem segColor_nil (s0 : ℚ × String) (t : ℚ) :
    segColor s0 [] t = hexToRGB s0.2 := by
  simp [segColor, findSeg, interp2_self]

theorem segColor_cons (s0 c1 : ℚ × String) (rest : List (ℚ × String)) (t : ℚ) :
    segColor s0 (c1 :: rest) t =
      (if t > c1.1 then segColor c1 rest t else interp2 s0 c1 t) := by
  by_cases h : t > c1.1 <;> simp [segColor, findSeg, h]

theorem rgbLe_refl (u : RGB) : rgbLe u u := ⟨le_refl _, le_refl _, le_refl _⟩

theorem rgbLe_trans {u v w : RGB} (h1 : rgbLe u v) (h2 : rgbLe v w) : rgbLe u w :=
  ⟨le_trans h1.1 h2.1, le_trans h1.2.1 h2.2.1, le_trans h1.2.2 h2.2.2⟩

theorem interp2_lower (s0 c1 : ℚ × String) (t : ℚ) (hd : 0 < c1.1 - s0.1)
    (ht : s0.1 ≤ t) (hm : rgbLe (hexToRGB s0.2) (hexToRGB c1.2)) :
    rgbLe (hexToRGB s0.2) (interp2 s0 c1 t) := by
  have hu : 0 ≤ (t - s0.1) / (if c1.1 - s0.1 = 0 then 1 else c1.1 - s0.1) := by
    rw [if_neg (ne_of_gt hd)]
    exact div_nonneg (by linarith) (le_of_lt hd)
  refine ⟨?_, ?_, ?_⟩ <;> simp only [interp2]
  · refine le_trans (le_of_eq (jround_intCast _).symm) (jround_mono ?_)
    have hΔ : (0:ℚ) ≤ (hexToRGB c1.2).r - (hexToRGB s0.2).r := by
      exact_mod_cast sub_nonneg.2 hm.1
    nlinarith [mul_nonneg hΔ hu]
  · refine le_trans (le_of_eq (jround_intCast _).symm) (jround_mono ?_)
    have hΔ : (0:ℚ) ≤ (hexToRGB c1.2).g - (hexToRGB s0.2).g := by
      exact_mod_cast sub_nonneg.2 hm.2.1
    nlinarith [mul_nonneg hΔ hu]
  · refine le_trans (le_of_eq (jround_intCast _).symm) (jround_mono ?_)
    have hΔ : (0:ℚ) ≤ (hexToRGB c1.2).b - (hexToRGB s0.2).b := by
      exact_mod_cast sub_nonneg.2 hm.2.2
    nlinarith [mul_nonneg hΔ hu]

theorem interp2_upper (s0 c1 : ℚ × String) (t : ℚ) (hd : 0 < c1.1 - s0.1)
    (ht : t ≤ c1.1) (hm : rgbLe (hexToRGB s0.2) (hexToRGB c1.2)) :
    rgbLe (interp2 s0 c1 t) (hexToRGB c1.2) := by
  have hu : (t - s0.1) / (if c1.1 - s0.1 = 0 then 1 else c1.1 - s0.1) ≤ 1 := by
    rw [if_neg (ne_of_gt hd), div_le_one hd]
    linarith
  refine ⟨?_, ?_, ?_⟩ <;> simp only [interp2]
  · refine le_trans (jround_mono ?_) (le_of_eq (jround_intCast _))
    have hΔ : (0:ℚ) ≤ (hexToRGB c1.2).r - (hexToRGB s0.2).r := by
      exact_mod_cast sub_nonneg.2 hm.1
    nlinarith [mul_le_mul_of_nonneg_left hu hΔ]
  · refine le_trans (jround_mono ?_) (le_of_eq (jround_intCast _))
    have hΔ : (0:ℚ) ≤ (hexToRGB c1.2).g - (hexToRGB s0.2).g := by
      exact_mod_cast sub_nonneg.2 hm.2.1
    nlinarith [mul_le_mul_of_nonneg_left hu hΔ]
  · refine le_trans (jround_mono ?_) (le_of_eq (jround_intCast _))
    have hΔ : (0:ℚ) ≤ (hexToRGB c1.2).b - (hexToRGB s0.2).b := by
      exact_mod_cast sub_nonneg.2 hm.2.2
    nlinarith [mul_le_mul_of_nonneg_left hu hΔ]

theorem interp2_mono (s0 c1 : ℚ × String) (t t' : ℚ) (hd : 0 < c1.1 - s0.1)
    (htt : t ≤ t') (hm : rgbLe (hexToRGB s0.2) (hexToRGB c1.2)) :
    rgbLe (interp2 s0 c1 t) (interp2 s0 c1 t') := by
  have hu : (t - s0.1) / (if c1.1 - s0.1 = 0 then 1 else c1.1 - s0.1) ≤
      (t' - s0.1) / (if c1.1 - s0.1 = 0 then 1 else c1.1 - s0.1) := by
    rw [if_neg (ne_of_gt hd)]
    exact (div_le_div_iff_of_pos_right hd).2 (by linarith)
  refine ⟨?_, ?_, ?_⟩ <;> simp only [interp2]
  · refine jround_mono ?_
    have hΔ : (0:ℚ) ≤ (hexToRGB c1.2).r - (hexToRGB s0.2).r := by
      exact_mod_cast sub_nonneg.2 hm.1
    nlinarith [mul_le_mul_of_nonneg_left hu hΔ]
  · refine jround_mono ?_
    have hΔ : (0:ℚ) ≤ (hexToRGB c1.2).g - (hexToRGB s0.2).g := by
      exact_mod_cast sub_nonneg.2 hm.2.1
    nlinarith [mul_le_mul_of_nonneg_left hu hΔ]
  · refine jround_mono ?_
    have hΔ : (0:ℚ) ≤ (hexToRGB c1.2).b - (hexToRGB s0.2).b := by
      exact_mod_cast sub_nonneg.2 hm.2.2
    nlinarith [mul_le_mul_of_nonneg_left hu hΔ]

theorem segColor_lower : ∀ (rest : List (ℚ × String)) (s0 : ℚ × String) (t : ℚ),
    stopsSorted s0 rest → stopsChanMono s0 rest → s0.1 ≤ t →
    rgbLe (hexToRGB s0.2) (segColor s0 rest t) := by
  intro rest
  induction rest with
  | nil =>
    intro s0 t _ _ _
    rw [segColor_nil]
    exact rgbLe_refl _
  | cons c1 r ih =>
    intro s0 t hs hm ht
    rw [segColor_cons]
    by_cases h : t > c1.1
    · rw [if_pos h]
      exact rgbLe_trans hm.1 (ih c1 t hs.2 hm.2 (le_of_lt h))
    · rw [if_neg h]
      exact interp2_lower s0 c1 t (by linarith [hs.1]) ht hm.1

theorem segColor_mono : ∀ (rest : List (ℚ × String)) (s0 : ℚ × String) (t t' : ℚ),
    stopsSorted s0 rest → stopsChanMono s0 rest → s0.1 ≤ t → t ≤ t' →
    rgbLe (segColor s0 rest t) (segColor s0 rest t') := by
  intro rest
  induction rest with
  | nil =>
    intro s0 t t' _ _ _ _
    rw [segColor_nil, segColor_nil]
    exact rgbLe_refl _
  | cons c1 r ih =>
    intro s0 t t' hs hm ht htt
    rw [segColor_cons, segColor_cons]
    by_cases h1 : t > c1.1
    · rw [if_pos h1, if_pos (by linarith)]
      exact ih c1 t t' hs.2 hm.2 (le_of_lt h1) htt
    · rw [if_neg h1]
      push_neg at h1
      by_cases h2 : t' > c1.1
      · rw [if_pos h2]
        exact rgbLe_trans (interp2_upper s0 c1 t (by linarith [hs.1]) h1 hm.1)
          (segColor_lower r c1 t' hs.2 hm.2 (le_of_lt h2))
      · rw [if_neg h2]
        exact interp2_mono s0 c1 t t' (by linarith [hs.1]) htt hm.1

theorem hx0 : hexToRGB "#31083E" = ⟨49, 8, 62⟩ := by decide
theorem hx1 : hexToRGB "#3D0A89" = ⟨61, 10, 137⟩ := by decide
theorem hx2 : hexToRGB "#532496" = ⟨83, 36, 150⟩ := by decide
theorem hx3 : hexToRGB "#6A3FA3" = ⟨106, 63, 163⟩ := by decide
theorem hx4 : hexToRGB "#815AB0" = ⟨129, 90, 176⟩ := by decide
theorem hx5 : hexToRGB "#9775BE" = ⟨151, 117, 190⟩ := by decide
theorem hx6 : hexToRGB "#AD90CB" = ⟨173, 144, 203⟩ := by decide
theorem hx7 : hexToRGB "#C3ABD8" = ⟨195, 171, 216⟩ := by decide
theorem hx8 : hexToRGB "#D8C5E4" = ⟨216, 197, 228⟩ := by decide
theorem hx9 : hexToRGB "#ECE0F0" = ⟨236, 224, 240⟩ := by decide

theorem vStops_sorted : stopsSorted (0, "#31083E") vStops.tail := by
  norm_num [stopsSorted, vStops]

theorem vStops_chanMono : stopsChanMono (0, "#31083E") vStops.tail := by
  norm_num [stopsChanMono, vStops, rgbLe, hx0, hx1, hx2, hx3, hx4, hx5, hx6,
    hx7, hx8, hx9]

theorem stopAt_nonneg (i : ℕ) : 0 ≤ (stopAt i).1 := by
  rcases i with _ | _ | _ | _ | _ | _ | _ | _ | _ | _ | n <;>
    norm_num [stopAt, vStops, List.getD]

theorem stopAt_le_one (i : ℕ) : (stopAt i).1 ≤ 1 := by
  rcases i with _ | _ | _ | _ | _ | _ | _ | _ | _ | _ | n <;>
    norm_num [stopAt, vStops, List.getD]

theorem clampQ_clampQ (t : ℚ) : clampQ (clampQ t) = clampQ t := by
  unfold clampQ
  rcases le_total t 0 with h | h
  · rw [max_eq_left h]
    norm_num
  · rw [max_eq_right h]
    rcases le_total t 1 with h1 | h1
    · rw [min_eq_right h1, max_eq_right h, min_eq_right h1]
    · rw [min_eq_left h1]
      norm_num

/-- **C8.** The colormap clamps its input to `[0,1]` (it agrees with
itself at the clamped parameter everywhere), hits the first and last
stop colors exactly at 0 and 1, and between two adjacent stops every
color channel is monotone (nondecreasing, as all stop channels
increase) in the parameter. -/
theorem viridis_colormap_correct :
    (∀ t : ℚ, viridis t = viridis (clampQ t)) ∧
    viridis 0 = hexToRGB (stopAt 0).2 ∧
    viridis 1 = hexToRGB (stopAt 9).2 ∧
    (∀ (i : ℕ) (t t' : ℚ), i + 1 < vStops.length →
      (stopAt i).1 ≤ t → t ≤ t' → t' ≤ (stopAt (i + 1)).1 →
      (viridis t).r ≤ (viridis t').r ∧ (viridis t).g ≤ (viridis t').g ∧
        (viridis t).b ≤ (viridis t').b) := by
  have hv : ∀ s : ℚ, viridisBody s = segColor (0, "#31083E") vStops.tail s :=
    fun s => rfl
  refine ⟨?_, ?_, ?_, ?_⟩
  · intro t
    show viridisBody (clampQ t) = viridisBody (clampQ (clampQ t))
    rw [clampQ_clampQ]
  · rw [show viridis 0 = segColor (0, "#31083E") vStops.tail (clampQ 0) from rfl]
    norm_num [clampQ, segColor, vStops, findSeg, interp2, stopAt, List.getD,
      jround, hx0, hx1]
  · rw [show viridis 1 = segColor (0, "#31083E") vStops.tail (clampQ 1) from rfl]
    norm_num [clampQ, segColor, vStops, findSeg, interp2, stopAt, List.getD,
      jround, hx8, hx9]
  · intro i t t' hi h0 htt ht1
    have h0t : (0:ℚ) ≤ t := le_trans (stopAt_nonneg i) h0
    have ht'1 : t' ≤ 1 := le_trans ht1 (stopAt_le_one (i + 1))
    have hct : clampQ t = t := by
      rw [clampQ, max_eq_right h0t, min_eq_right (by linarith)]
    have hct' : clampQ t' = t' := by
      rw [clampQ, max_eq_right (by linarith), min_eq_right ht'1]
    have h := segColor_mono vStops.tail (0, "#31083E") t t' vStops_sorted
      vStops_chanMono h0t htt
    have e1 : viridis t = segColor (0, "#31083E") vStops.tail t := by
      rw [show viridis t = viridisBody (clampQ t) from rfl, hct, hv]
    have e2 : viridis t' = segColor (0, "#31083E") vStops.tail t' := by
      rw [show viridis t' = viridisBody (clampQ t') from rfl, hct', hv]
    rw [e1, e2]
    exact ⟨h.1, h.2.1, h.2.2⟩

/-- Witness for C8: channel monotonicity applied inside the first
stop interval. -/
theorem viridis_colormap_correct_witness :
    (viridis 0).r ≤ (viridis (1/10)).r ∧ (viridis 0).g ≤ (viridis (1/10)).g ∧
      (viridis 0).b ≤ (viridis (1/10)).b :=
  viridis_colormap_correct.2.2.2 0 0 (1/10) (by norm_num [vStops])
    (by norm_num [stopAt, vStops, List.getD]) (by norm_num)
    (by norm_num [stopAt, vStops, List.getD])

theorem foldl_add_f (f : PtR → ℝ) :
    ∀ (l : List PtR) (a : ℝ), l.foldl (fun s p => s + f p) a = a + (l.map f).sum := by
  intro l
  induction l with
  | nil => intro a; simp
  | cons p ps ih => intro a; simp [ih, add_assoc]

theorem sumX_eq (pts : List PtR) : sumX pts = (pts.map PtR.x).sum := by
  simpa [sumX] using foldl_add_f PtR.x pts 0

theorem sumY_eq (pts : List PtR) : sumY pts = (pts.map PtR.y).sum := by
  simpa [sumY] using foldl_add_f PtR.y pts 0

theorem covAcc_eq (l : List PtR) (mx my : ℝ) :
    covAcc l mx my =
      ((l.map fun p => (p.x - mx) * (p.x - mx)).sum,
       (l.map fun p => (p.y - my) * (p.y - my)).sum,
       (l.map fun p => (p.x - mx) * (p.y - my)).sum) := by
  suffices h : ∀ (l : List PtR) (acc : ℝ × ℝ × ℝ),
      l.foldl (fun (s : ℝ × ℝ × ℝ) p =>
        let dx := p.x - mx
        let dy := p.y - my
        (s.1 + dx * dx, s.2.1 + dy * dy, s.2.2 + dx * dy)) acc =
      (acc.1 + (l.map fun p => (p.x - mx) * (p.x - mx)).sum,
       acc.2.1 + (l.map fun p => (p.y - my) * (p.y - my)).sum,
       acc.2.2 + (l.map fun p => (p.x - mx) * (p.y - my)).sum) by
    simpa [covAcc] using h l (0, 0, 0)
  intro l
  induction l with
  | nil => intro acc; simp
  | cons p ps ih => intro acc; simp [ih, add_assoc]

open Classical in
/-- **C1.** For at least 3 points, `covEllipse` returns the sample
mean as center; its width and height are `1.5·k` and `2·k` times the
square roots of (the nonnegative parts of) the two ordered roots of
the characteristic polynomial of the ε-regularized population
covariance matrix `[[a, b], [b, d]]` — which are exactly its
eigenvalues; and its angle is the `atan2` of the normalized
closed-form major eigenvector, with the alternate formula substituted
below the `1e-12` degeneracy threshold. -/
theorem covEllipse_correct (pts : List PtR) (k : ℝ) (h3 : 3 ≤ pts.length) :
    covEllipseSpec pts k := by
  have hsx := sumX_eq pts
  have hsy := sumY_eq pts
  simp only [covEllipseSpec, covEllipse, eig2x2, covAcc_eq, hsx, hsy]
  set n : ℝ := (pts.length : ℝ) with hn
  set mx := (pts.map PtR.x).sum / n with hmx
  set my := (pts.map PtR.y).sum / n with hmy
  set a := (pts.map fun p => (p.x - mx) * (p.x - mx)).sum / n + 1e-9 with ha
  set d := (pts.map fun p => (p.y - my) * (p.y - my)).sum / n + 1e-9 with hd
  set b := (pts.map fun p => (p.x - mx) * (p.y - my)).sum / n with hb
  refine ⟨by trivial, by trivial, ?_⟩
  clear_value n mx my a d b
  have hdisc : (0:ℝ) ≤ (a + d) * (a + d) / 4 - (a * d - b * b) := by
    have h1 : (a + d) * (a + d) / 4 - (a * d - b * b) =
        (a - d) * (a - d) / 4 + b * b := by ring
    rw [h1]
    have h2 := mul_self_nonneg (a - d)
    have h3 := mul_self_nonneg b
    linarith
  have hmax : max 0 ((a + d) * (a + d) / 4 - (a * d - b * b)) =
      (a + d) * (a + d) / 4 - (a * d - b * b) := max_eq_right hdisc
  set s := Real.sqrt (max 0 ((a + d) * (a + d) / 4 - (a * d - b * b))) with hs
  clear_value s
  have hs2 : s * s = (a + d) * (a + d) / 4 - (a * d - b * b) := by
    rw [hs, hmax]
    exact Real.mul_self_sqrt hdisc
  have hs0 : 0 ≤ s := hs ▸ Real.sqrt_nonneg _
  set l1 := (a + d) / 2 + s with hl1
  set l2 := (a + d) / 2 - s with hl2
  have hchar1 : l1 * l1 - (a + d) * l1 + (a * d - b * b) = 0 := by
    rw [hl1]
    linear_combination hs2
  have hchar2 : l2 * l2 - (a + d) * l2 + (a * d - b * b) = 0 := by
    rw [hl2]
    linear_combination hs2
  refine ⟨l1, l2,
    if |b| + |l1 - a| < 1e-12 then l1 - d else b,
    if |b| + |l1 - a| < 1e-12 then b else l1 - a,
    by rw [hl1, hl2]; linarith, hchar1, hchar2, ?_, rfl, rfl, ?_, ?_, ?_, ?_⟩
  · intro μ hμ
    have hfac : (μ - l1) * (μ - l2) = 0 := by
      rw [hl1, hl2]
      linear_combination hμ - hs2
    rcases mul_eq_zero.1 hfac with h | h
    · exact Or.inl (sub_eq_zero.1 h)
    · exact Or.inr (sub_eq_zero.1 h)
  · by_cases hc : |b| + |l1 - a| < 1e-12 <;> simp [hc]
  · by_cases hc : |b| + |l1 - a| < 1e-12
    · simp only [if_pos hc]
      linear_combination -hchar1
    · simp only [if_neg hc]
      ring
  · by_cases hc : |b| + |l1 - a| < 1e-12
    · simp only [if_pos hc]
      ring
    · simp only [if_neg hc]
      linear_combination -hchar1
  · by_cases hc : |b| + |l1 - a| < 1e-12 <;> simp [hc]

/-- Witness for C1 at a concrete 3-point cloud. -/
theorem covEllipse_correct_witness :
    3 ≤ ptsW.length ∧ covEllipseSpec ptsW 1 :=
  ⟨by decide, covEllipse_correct ptsW 1 (by decide)⟩
